import Mathlib

/-!
Verification development for the ViSP `vpImgproc.cpp` intensity-transform
kernels (`vp::adjust`, `vp::equalizeHistogram`, `vp::gammaCorrection`,
`vp::stretchContrast`, `vp::stretchContrastHSV`, `vp::unsharpMask`).

Images are shallowly embedded as lists: a grayscale image is a `List ℕ`
of pixel values (bytes, so every value is ≤ 255 in any C++ image), a
color image is a `List RGBa`.  External collaborators that are not part
of the repository source (`vpMath::saturate`, `vpMath::round`,
`vpHistogram`, `vpImage::getMinMaxValue`, `vpImageFilter::gaussianBlur`,
`vpImageConvert` RGBa↔HSV conversions, libm `pow`) are modelled from the
specification, either as explicit definitions (saturate, round, min/max
scan, histogram) or as function parameters (blur, pow, color
conversion), so that theorems quantify over every behaviour the
specification allows them.

Where the C++ computes a value the language leaves unspecified (reading
a lookup-table entry that was never written, or rounding the NaN
produced by a 0/0 double division), the embedding returns `none`: an
`Option` result of `none` means the C++ program has no defined result
there.
-/

namespace Vp

/-- Modelled from the spec: `vpMath::saturate<unsigned char>` (external,
visp core) clamps a computed value into [0,255], rounding to the nearest
integer (half away from zero for the non-negative values that occur
here, i.e. `⌊x + 1/2⌋`). -/
def saturate (x : ℚ) : ℕ := (min 255 (max 0 ⌊x + 1/2⌋)).toNat

/-- A 4-byte RGBA pixel (`vpRGBa`), each channel a byte value. -/
structure RGBa where
  R : ℕ
  G : ℕ
  B : ℕ
  A : ℕ
deriving DecidableEq

/-- `vp::adjust(vpImage<unsigned char>&, alpha, beta)` (vpImgproc.cpp
lines 57-66): builds the lookup table `lut[i] = saturate(alpha*i + beta)`
and applies it to every pixel via `performLut` (which maps each pixel
value `p` to `lut[p]`). -/
def adjust (I : List ℕ) (alpha beta : ℚ) : List ℕ :=
  I.map fun p => saturate (alpha * ((p : ℕ) : ℚ) + beta)

/-- Modelled from the spec: `vpHistogram::calculate` (external, visp
core) returns the 256-bin frequency table; bin `v` counts the pixels
with value `v`. -/
def hist (I : List ℕ) (v : ℕ) : ℕ := I.count v

/-- The cumulative distribution of the histogram, exactly as built in
`vp::equalizeHistogram` (vpImgproc.cpp lines 139-141): `cdf[0] = hist[0]`
and `cdf[i] = cdf[i-1] + hist[i]`. -/
def cdf (I : List ℕ) : ℕ → ℕ
  | 0 => hist I 0
  | i + 1 => cdf I i + hist I (i + 1)

/-- The accumulator of the scan loop of `vp::equalizeHistogram`
(vpImgproc.cpp lines 137-152): the cdf value of the bin just processed
(the loop writes `cdf[i] = cdf[i-1] + hist[i]`), the running minimum
positive cdf value and its bin index, and the running maximum cdf value
and its bin index. -/
structure ScanSt where
  cdfPrev : ℕ
  cdfMin : ℕ
  minVal : ℕ
  cdfMax : ℕ
  maxVal : ℕ
deriving DecidableEq

/-- `std::numeric_limits<unsigned int>::max()`, the initial value of
`cdfMin` and `minValue` in the scan loop. -/
def UINTMAX : ℕ := 4294967295

/-- One iteration of the scan loop body (vpImgproc.cpp lines 141-151):
compute `cdf[i] = cdf[i-1] + hist[i]`; if `cdf[i] < cdfMin && cdf[i] > 0`
record the new minimum, and if `cdf[i] > cdfMax` record the new
maximum. -/
def scanStep (h : ℕ → ℕ) (s : ScanSt) (i : ℕ) : ScanSt :=
  let c := s.cdfPrev + h i
  let s1 := if c < s.cdfMin ∧ 0 < c then
      { s with cdfPrev := c, cdfMin := c, minVal := i }
    else { s with cdfPrev := c }
  if s1.cdfMax < c then { s1 with cdfMax := c, maxVal := i } else s1

/-- Folding the scan loop body over a list of bin indices. -/
def scanFold (h : ℕ → ℕ) (l : List ℕ) (s : ScanSt) : ScanSt :=
  l.foldl (scanStep h) s

/-- The scan loop of `vp::equalizeHistogram` (vpImgproc.cpp lines
137-152): the loop variable runs over `i = 1, …, 255` (bin 0 is never
examined), starting from `cdf[0] = hist[0]`, `cdfMin = minValue =
UINT_MAX` and `cdfMax = maxValue = 0`. -/
def eqScan (I : List ℕ) : ScanSt :=
  scanFold (hist I) (List.range' 1 255) ⟨hist I 0, UINTMAX, UINTMAX, 0, 0⟩

/-- Modelled from the spec: `vpMath::round` (external, visp core) on the
non-negative quotient `num / den`, i.e. `⌊num/den + 1/2⌋`, computed here
in exact (ℕ) arithmetic as `(2*num + den) / (2*den)`.  The C++ performs
the division in `double`; the model uses exact rationals. -/
def roundHalf (num den : ℕ) : ℕ := (2 * num + den) / (2 * den)

/-- The lookup table built by `vp::equalizeHistogram` (vpImgproc.cpp
lines 155-159): entries are written only for `x ∈ [minValue, maxValue]`,
with `lut[x] = round((cdf[x]-cdfMin) / (double)(nbPixels-cdfMin) * 255)`.
An entry outside `[minValue, maxValue]` is never written (reading it is
reading uninitialized memory), and when `nbPixels - cdfMin = 0` the C++
computes `round(0.0/0.0) = round(NaN)`, an unspecified byte; both cases
are `none` in the model. -/
def equalizeLut (I : List ℕ) (x : ℕ) : Option ℕ :=
  if (eqScan I).minVal ≤ x ∧ x ≤ (eqScan I).maxVal then
    if I.length - (eqScan I).cdfMin = 0 then none
    else some (roundHalf ((cdf I x - (eqScan I).cdfMin) * 255)
      (I.length - (eqScan I).cdfMin))
  else none

/-- Per-pixel application of a partial lookup table (`performLut` with a
table whose entries may be unwritten): the result is defined only when
the entry read for every pixel is defined. -/
def mapOpt (f : α → Option β) : List α → Option (List β)
  | [] => some []
  | a :: l =>
    match f a, mapOpt f l with
    | some b, some r => some (b :: r)
    | _, _ => none

/-- `vp::equalizeHistogram(vpImage<unsigned char>&)` (vpImgproc.cpp
lines 126-162): returns the image unchanged when it is empty, otherwise
applies the lookup table derived from the cdf scan to every pixel. -/
def equalizeHistogram (I : List ℕ) : Option (List ℕ) :=
  if I.length = 0 then some I else mapOpt (equalizeLut I) I

/-- The interleaving loop of the color `vp::equalizeHistogram`
(vpImgproc.cpp lines 206-226): rebuilds the RGBA image from the four
single-channel planes, one pixel per step. -/
def mergeRGBa : List ℕ → List ℕ → List ℕ → List ℕ → List RGBa
  | r :: rs, g :: gs, b :: bs, a :: as_ =>
    ⟨r, g, b, a⟩ :: mergeRGBa rs gs bs as_
  | _, _, _, _ => []

/-- `vp::equalizeHistogram(vpImage<vpRGBa>&, useHSV = false)`
(vpImgproc.cpp lines 186-226, non-HSV branch): no-op on an empty image;
otherwise split the image into the four planes `pR, pG, pB, pa`
(`vpImageConvert::split`), equalize `pR`, `pG` and `pB` (lines 201-203;
the alpha plane `pa` is split but never equalized), and interleave
`pR, pG, pB, pa` back into the RGBA image. -/
def colorEqualizeHistogram (I : List RGBa) : Option (List RGBa) :=
  if I.length = 0 then some I
  else
    match equalizeHistogram (I.map RGBa.R), equalizeHistogram (I.map RGBa.G),
        equalizeHistogram (I.map RGBa.B) with
    | some r, some g, some b => some (mergeRGBa r g b (I.map RGBa.A))
    | _, _, _ => none

/-- The message of the `vpException(vpException::badValue, …)` thrown by
`vp::gammaCorrection` (vpImgproc.cpp line 272). -/
def gammaErrMsg : String := "The gamma value must be positive !"

/-- The lookup table of `vp::gammaCorrection` (vpImgproc.cpp lines
276-279): `lut[i] = saturate(pow(i/255, 1/gamma) * 255)`.  The libm
`pow` is external and is passed in as the parameter `powf`. -/
def gammaLut (powf : ℚ → ℚ → ℚ) (gamma : ℚ) (i : ℕ) : ℕ :=
  saturate (powf ((i : ℚ) / 255) (1 / gamma) * 255)

/-- `vp::gammaCorrection(vpImage<unsigned char>&, gamma)` (vpImgproc.cpp
lines 267-282): if `gamma > 0` build and apply the lookup table,
otherwise throw before touching the image.  The result is the final
state of the (in-place) image buffer together with the raised error,
if any. -/
def gammaCorrection (powf : ℚ → ℚ → ℚ) (I : List ℕ) (gamma : ℚ) :
    List ℕ × Option String :=
  if 0 < gamma then (I.map (gammaLut powf gamma), none)
  else (I, some gammaErrMsg)

/-- `vp::gammaCorrection(const vpImage<unsigned char>&,
vpImage<unsigned char>&, gamma)` (vpImgproc.cpp lines 291-294): first
executes `I2 = I1` (the output buffer is overwritten with a copy of the
input), then runs the in-place form on `I2`; an exception from the
in-place form propagates after the copy has happened.  The result is the
final state of `I2` together with the raised error, if any. -/
def gammaCorrection2 (powf : ℚ → ℚ → ℚ) (I1 : List ℕ) (_I2 : List ℕ)
    (gamma : ℚ) : List ℕ × Option String :=
  gammaCorrection powf I1 gamma

/-- Modelled from the spec: `vpImage::getMinMaxValue` (external, visp
core), minimum of the buffer (meaningful for a non-empty buffer). -/
def listMinNat (l : List ℕ) : ℕ := l.foldl min (l.headD 0)

/-- Modelled from the spec: `vpImage::getMinMaxValue` (external, visp
core), maximum of the buffer (meaningful for a non-empty buffer). -/
def listMaxNat (l : List ℕ) : ℕ := l.foldl max (l.headD 0)

/-- The lookup table of `vp::stretchContrast` (vpImgproc.cpp lines
346-354): when `range = max - min > 0` the entries `x ∈ [min, max]` get
`lut[x] = 255 * (x - min) / range` (truncating integer division); when
`range = 0` the single entry `lut[min] = min` is written.  Entries never
written are `none` (uninitialized memory in the C++). -/
def stretchLut (I : List ℕ) (x : ℕ) : Option ℕ :=
  let m := listMinNat I
  let M := listMaxNat I
  if 0 < M - m then
    if m ≤ x ∧ x ≤ M then some (255 * (x - m) / (M - m)) else none
  else
    if x = m then some m else none

/-- `vp::stretchContrast(vpImage<unsigned char>&)` (vpImgproc.cpp lines
339-357): scan for min/max, build the lookup table, apply it to every
pixel. -/
def stretchContrast (I : List ℕ) : Option (List ℕ) :=
  mapOpt (stretchLut I) I

/-- Modelled from the spec: `vpImage<double>::getMinMaxValue` (external,
visp core), minimum of a floating-point buffer. -/
def listMinQ (l : List ℚ) : ℚ := l.foldl min (l.headD 0)

/-- Modelled from the spec: `vpImage<double>::getMinMaxValue` (external,
visp core), maximum of a floating-point buffer. -/
def listMaxQ (l : List ℚ) : ℚ := l.foldl max (l.headD 0)

/-- One channel-stretching pass of `vp::stretchContrastHSV`
(vpImgproc.cpp lines 479-500): when `max - min > 0` every sample becomes
`(v - min) / (max - min)`, otherwise the channel is left unmodified (no
division by zero is performed). -/
def stretchPlane (s : List ℚ) : List ℚ :=
  let mn := listMinQ s
  let mx := listMaxQ s
  if 0 < mx - mn then s.map fun x => (x - mn) / (mx - mn) else s

/-- `vp::stretchContrastHSV(vpImage<vpRGBa>&)` (vpImgproc.cpp lines
465-504): convert every pixel to HSV (`vpImageConvert::RGBaToHSV`,
external, passed as the parameter `toHSV`), stretch the saturation and
value planes (the hue plane is never written), and convert back
(`vpImageConvert::HSVToRGBa`, external, passed as `fromHSV`). -/
def stretchContrastHSV (toHSV : RGBa → ℚ × ℚ × ℚ)
    (fromHSV : ℚ × ℚ × ℚ → RGBa) (I : List RGBa) : List RGBa :=
  let h := I.map fun p => (toHSV p).1
  let s := I.map fun p => (toHSV p).2.1
  let v := I.map fun p => (toHSV p).2.2
  let s2 := stretchPlane s
  let v2 := stretchPlane v
  (List.range I.length).map fun i =>
    fromHSV (h.getD i 0, s2.getD i 0, v2.getD i 0)

/-- `vp::unsharpMask(vpImage<unsigned char>&, size, weight)`
(vpImgproc.cpp lines 526-538): when `weight < 1 && weight >= 0`, compute
the Gaussian-blurred copy (`vpImageFilter::gaussianBlur`, external,
passed as the parameter `blur`) and set every pixel to
`saturate((in - weight*blurred) / (1 - weight))`; for any other weight
the body is skipped and the image is returned unchanged. -/
def unsharpMask (blur : ℕ → List ℕ → List ℚ) (I : List ℕ) (size : ℕ)
    (weight : ℚ) : List ℕ :=
  if weight < 1 ∧ 0 ≤ weight then
    let bl := blur size I
    (List.range I.length).map fun cpt =>
      saturate ((((I.getD cpt 0 : ℕ) : ℚ) - weight * bl.getD cpt 0)
        / (1 - weight))
  else I

/-- `vp::unsharpMask(vpImage<vpRGBa>&, size, weight)` (vpImgproc.cpp
lines 561-583): when `weight < 1 && weight >= 0`, split off the R, G and
B planes, blur each (`vpImageFilter::gaussianBlur`, external, parameter
`blur`), and rewrite the R, G and B bytes of every pixel with
`saturate((in - weight*blurred) / (1 - weight))`; the A byte of every
pixel is never written.  For any other weight the body is skipped. -/
def unsharpMaskColor (blur : ℕ → List ℕ → List ℚ) (I : List RGBa)
    (size : ℕ) (weight : ℚ) : List RGBa :=
  if weight < 1 ∧ 0 ≤ weight then
    let blR := blur size (I.map RGBa.R)
    let blG := blur size (I.map RGBa.G)
    let blB := blur size (I.map RGBa.B)
    (List.range I.length).map fun cpt =>
      let p := I.getD cpt ⟨0, 0, 0, 0⟩
      { R := saturate (((p.R : ℚ) - weight * blR.getD cpt 0) / (1 - weight)),
        G := saturate (((p.G : ℚ) - weight * blG.getD cpt 0) / (1 - weight)),
        B := saturate (((p.B : ℚ) - weight * blB.getD cpt 0) / (1 - weight)),
        A := p.A }
  else I

/-! ### Basic component lemmas for the scan loop -/

theorem scanStep_cdfPrev (h : ℕ → ℕ) (s : ScanSt) (i : ℕ) :
    (scanStep h s i).cdfPrev = s.cdfPrev + h i := by
  simp only [scanStep]
  split <;> split <;> rfl

theorem scanStep_min_update (h : ℕ → ℕ) (s : ScanSt) (i : ℕ)
    (hc : s.cdfPrev + h i < s.cdfMin ∧ 0 < s.cdfPrev + h i) :
    (scanStep h s i).cdfMin = s.cdfPrev + h i ∧ (scanStep h s i).minVal = i := by
  simp only [scanStep, if_pos hc]
  split <;> exact ⟨rfl, rfl⟩

theorem scanStep_min_skip (h : ℕ → ℕ) (s : ScanSt) (i : ℕ)
    (hc : ¬(s.cdfPrev + h i < s.cdfMin ∧ 0 < s.cdfPrev + h i)) :
    (scanStep h s i).cdfMin = s.cdfMin ∧ (scanStep h s i).minVal = s.minVal := by
  simp only [scanStep, if_neg hc]
  split <;> exact ⟨rfl, rfl⟩

theorem scanStep_max_update (h : ℕ → ℕ) (s : ScanSt) (i : ℕ)
    (hc : s.cdfMax < s.cdfPrev + h i) :
    (scanStep h s i).cdfMax = s.cdfPrev + h i ∧ (scanStep h s i).maxVal = i := by
  simp only [scanStep]
  split <;> simp_all

theorem scanStep_max_skip (h : ℕ → ℕ) (s : ScanSt) (i : ℕ)
    (hc : ¬ s.cdfMax < s.cdfPrev + h i) :
    (scanStep h s i).cdfMax = s.cdfMax ∧ (scanStep h s i).maxVal = s.maxVal := by
  simp only [scanStep]
  split <;> simp_all

theorem scanFold_cons (h : ℕ → ℕ) (a : ℕ) (l : List ℕ) (s : ScanSt) :
    scanFold h (a :: l) s = scanFold h l (scanStep h s a) := rfl

theorem count_zero_eq_countP (l : List ℕ) :
    l.count 0 = l.countP (fun p => decide (p ≤ 0)) := by
  induction l with
  | nil => rfl
  | cons a l ih =>
    by_cases ha : a = 0 <;> simp [List.count_cons, List.countP_cons, ha, ih]

theorem countP_le_add_count (l : List ℕ) (i : ℕ) :
    l.countP (fun p => decide (p ≤ i)) + l.count (i + 1)
      = l.countP (fun p => decide (p ≤ i + 1)) := by
  induction l with
  | nil => simp
  | cons a l ih =>
    simp only [List.count_cons, List.countP_cons]
    by_cases h1 : a ≤ i
    · have h2 : ¬ a = i + 1 := by omega
      have h3 : a ≤ i + 1 := by omega
      simp [h1, h2, h3, ← ih]
      omega
    · by_cases h2 : a = i + 1
      · subst h2
        simp [h1, ← ih]
        omega
      · have h3 : ¬ a ≤ i + 1 := by omega
        simp [h1, h2, h3, ← ih]

theorem cdf_eq_countP (I : List ℕ) (i : ℕ) :
    cdf I i = I.countP (fun p => decide (p ≤ i)) := by
  induction i with
  | zero => exact count_zero_eq_countP I
  | succ i ih =>
    show cdf I i + hist I (i + 1) = _
    rw [ih, hist]
    exact countP_le_add_count I i

theorem cdf_le_length (I : List ℕ) (i : ℕ) : cdf I i ≤ I.length := by
  rw [cdf_eq_countP]
  exact List.countP_le_length _

theorem cdf_last (I : List ℕ) (hpix : ∀ p ∈ I, p ≤ 255) :
    cdf I 255 = I.length := by
  rw [cdf_eq_countP]
  exact List.countP_eq_length.mpr (fun a ha => by simpa using hpix a ha)

theorem cdf_step (I : List ℕ) (i : ℕ) (hi : 1 ≤ i) :
    cdf I i = cdf I (i - 1) + hist I i := by
  obtain ⟨j, rfl⟩ : ∃ j, i = j + 1 := ⟨i - 1, by omega⟩
  rfl

theorem cdf_mono (I : List ℕ) {i j : ℕ} (hij : i ≤ j) : cdf I i ≤ cdf I j := by
  induction j with
  | zero =>
    have : i = 0 := by omega
    subst this
    exact le_refl _
  | succ j ih =>
    rcases Nat.lt_or_ge i (j + 1) with hlt | hge
    · exact le_trans (ih (by omega)) (Nat.le_add_right _ _)
    · have : i = j + 1 := by omega
      subst this
      exact le_refl _

theorem scanFold_frozen (h : ℕ → ℕ) (l : List ℕ) (s : ScanSt)
    (hz : ∀ i ∈ l, h i = 0)
    (hmin : ¬(s.cdfPrev < s.cdfMin ∧ 0 < s.cdfPrev))
    (hmax : ¬ s.cdfMax < s.cdfPrev) :
    scanFold h l s = s := by
  induction l with
  | nil => rfl
  | cons a l ih =>
    have hza : h a = 0 := hz a (List.mem_cons_self a l)
    have hstep : scanStep h s a = s := by
      have hc : s.cdfPrev + h a = s.cdfPrev := by omega
      simp only [scanStep, hc]
      rw [if_neg hmin, if_neg hmax]
    rw [scanFold_cons, hstep]
    exact ih (fun i hi => hz i (List.mem_cons_of_mem a hi))

/-! ### Characterization of the scan loop

In the lemmas below `h` plays the role of the histogram and `f` the role
of the mathematical cdf; the hypothesis `hstep` states that the running
sum `cdfPrev` carried by the loop reproduces `f`, and `hmono` that `f`
is non-decreasing (true of any cdf). -/

theorem scanFold_min_frozen (f h : ℕ → ℕ)
    (hstep : ∀ i, 1 ≤ i → f i = f (i - 1) + h i) :
    ∀ (k a : ℕ) (s : ScanSt), 1 ≤ a → s.cdfPrev = f (a - 1) →
    (∀ i, a ≤ i → i < a + k → ¬(f i < s.cdfMin ∧ 0 < f i)) →
    ∀ r, r = scanFold h (List.range' a k) s →
    r.cdfPrev = f (a + k - 1) ∧ r.cdfMin = s.cdfMin ∧ r.minVal = s.minVal := by
  intro k
  induction k with
  | zero =>
    intro a s ha hprev _ r hr
    subst hr
    exact ⟨by simpa using hprev, rfl, rfl⟩
  | succ k ih =>
    intro a s ha hprev hno r hr
    rw [List.range'_succ, scanFold_cons] at hr
    have hc : s.cdfPrev + h a = f a := by
      rw [hprev, ← hstep a ha]
    have hskip := scanStep_min_skip h s a (by
      rw [hc]
      exact hno a (le_refl a) (by omega))
    have hp : (scanStep h s a).cdfPrev = f a := by
      rw [scanStep_cdfPrev, hc]
    obtain ⟨h1, h2, h3⟩ := ih (a + 1) (scanStep h s a) (by omega)
      (by simpa using hp)
      (by
        intro i hi1 hi2
        rw [hskip.1]
        exact hno i (by omega) (by omega))
      r hr
    refine ⟨by rw [h1]; congr 1; omega, ?_, ?_⟩
    · rw [h2, hskip.1]
    · rw [h3, hskip.2]

theorem scanFold_max_frozen (f h : ℕ → ℕ)
    (hstep : ∀ i, 1 ≤ i → f i = f (i - 1) + h i) :
    ∀ (k a : ℕ) (s : ScanSt), 1 ≤ a → s.cdfPrev = f (a - 1) →
    (∀ i, a ≤ i → i < a + k → f i ≤ s.cdfMax) →
    ∀ r, r = scanFold h (List.range' a k) s →
    r.cdfPrev = f (a + k - 1) ∧ r.cdfMax = s.cdfMax ∧ r.maxVal = s.maxVal := by
  intro k
  induction k with
  | zero =>
    intro a s ha hprev _ r hr
    subst hr
    exact ⟨by simpa using hprev, rfl, rfl⟩
  | succ k ih =>
    intro a s ha hprev hno r hr
    rw [List.range'_succ, scanFold_cons] at hr
    have hc : s.cdfPrev + h a = f a := by
      rw [hprev, ← hstep a ha]
    have hskip := scanStep_max_skip h s a (by
      rw [hc]
      have := hno a (le_refl a) (by omega)
      omega)
    have hp : (scanStep h s a).cdfPrev = f a := by
      rw [scanStep_cdfPrev, hc]
    obtain ⟨h1, h2, h3⟩ := ih (a + 1) (scanStep h s a) (by omega)
      (by simpa using hp)
      (by
        intro i hi1 hi2
        rw [hskip.1]
        exact hno i (by omega) (by omega))
      r hr
    refine ⟨by rw [h1]; congr 1; omega, ?_, ?_⟩
    · rw [h2, hskip.1]
    · rw [h3, hskip.2]

theorem scanFold_min_found (f h : ℕ → ℕ)
    (hstep : ∀ i, 1 ≤ i → f i = f (i - 1) + h i)
    (hmono : ∀ i j, i ≤ j → f i ≤ f j) :
    ∀ (k a : ℕ) (s : ScanSt), 1 ≤ a → s.cdfPrev = f (a - 1) →
    (∀ i, f i < s.cdfMin) →
    (∃ i, a ≤ i ∧ i < a + k ∧ 0 < f i) →
    ∀ r, r = scanFold h (List.range' a k) s →
    r.cdfMin = f r.minVal ∧ 0 < f r.minVal ∧ a ≤ r.minVal ∧ r.minVal < a + k ∧
      ∀ j, a ≤ j → j < r.minVal → f j = 0 := by
  intro k
  induction k with
  | zero =>
    intro a s _ _ _ hex r _
    obtain ⟨i, h1, h2, _⟩ := hex
    omega
  | succ k ih =>
    intro a s ha hprev hlt hex r hr
    rw [List.range'_succ, scanFold_cons] at hr
    have hc : s.cdfPrev + h a = f a := by
      rw [hprev, ← hstep a ha]
    have hp : (scanStep h s a).cdfPrev = f a := by
      rw [scanStep_cdfPrev, hc]
    by_cases hpos : 0 < f a
    · -- the first positive cdf value: the minimum is recorded here and
      -- never changes afterwards
      have hupd := scanStep_min_update h s a (by rw [hc]; exact ⟨hlt a, hpos⟩)
      rw [hc] at hupd
      obtain ⟨m1, m2, m3⟩ := scanFold_min_frozen f h hstep k (a + 1)
        (scanStep h s a) (by omega) (by simpa using hp)
        (by
          intro i hi1 _
          rw [hupd.1]
          intro hcon
          exact absurd (hmono a i (by omega)) (by omega))
        r hr
      rw [m2, m3, hupd.1, hupd.2]
      exact ⟨rfl, hpos, le_refl a, by omega, fun j hj1 hj2 => by omega⟩
    · -- cdf still zero at this bin: nothing is recorded yet
      have hza : f a = 0 := by omega
      have hskip := scanStep_min_skip h s a (by rw [hc]; omega)
      obtain ⟨i, hi1, hi2, hi3⟩ := hex
      have hia : a + 1 ≤ i := by
        rcases Nat.eq_or_lt_of_le hi1 with heq | hlt2
        · exact absurd hi3 (by rw [← heq]; omega)
        · omega
      obtain ⟨m1, m2, m3, m4, m5⟩ := ih (a + 1) (scanStep h s a) (by omega)
        (by simpa using hp)
        (by intro j; rw [hskip.1]; exact hlt j)
        ⟨i, hia, by omega, hi3⟩ r hr
      refine ⟨m1, m2, by omega, by omega, ?_⟩
      intro j hj1 hj2
      rcases Nat.eq_or_lt_of_le hj1 with heq | hlt2
      · rw [← heq]
        exact hza
      · exact m5 j (by omega) hj2

theorem scanFold_max_found (f h : ℕ → ℕ)
    (hstep : ∀ i, 1 ≤ i → f i = f (i - 1) + h i)
    (hmono : ∀ i j, i ≤ j → f i ≤ f j) :
    ∀ (k a : ℕ) (s : ScanSt), 1 ≤ a → s.cdfPrev = f (a - 1) →
    s.cdfMax < f (a + k) →
    ∀ r, r = scanFold h (List.range' a (k + 1)) s →
    r.cdfMax = f (a + k) ∧ f r.maxVal = r.cdfMax ∧ a ≤ r.maxVal ∧
      r.maxVal < a + k + 1 ∧ ∀ j, a ≤ j → j < r.maxVal → f j < r.cdfMax := by
  intro k
  induction k with
  | zero =>
    intro a s ha hprev hmax r hr
    rw [List.range'_succ, scanFold_cons] at hr
    have hc : s.cdfPrev + h a = f a := by
      rw [hprev, ← hstep a ha]
    have hupd := scanStep_max_update h s a (by rw [hc]; simpa using hmax)
    rw [hc] at hupd
    have hr' : r = scanStep h s a := by
      rw [hr]
      rfl
    subst hr'
    rw [hupd.1, hupd.2]
    refine ⟨by norm_num, rfl, le_refl a, by omega, ?_⟩
    intro j hj1 hj2
    omega
  | succ k ih =>
    intro a s ha hprev hmax r hr
    rw [List.range'_succ, scanFold_cons] at hr
    have hc : s.cdfPrev + h a = f a := by
      rw [hprev, ← hstep a ha]
    have hp : (scanStep h s a).cdfPrev = f a := by
      rw [scanStep_cdfPrev, hc]
    have htarget : a + (k + 1) = (a + 1) + k := by omega
    by_cases hlt : f a < f (a + (k + 1))
    · -- the last bin is strictly above this one: recurse on the tail
      have hmax' : (scanStep h s a).cdfMax < f ((a + 1) + k) := by
        rw [← htarget]
        by_cases hup : s.cdfMax < s.cdfPrev + h a
        · rw [(scanStep_max_update h s a hup).1, hc]
          exact hlt
        · rw [(scanStep_max_skip h s a hup).1]
          omega
      obtain ⟨m1, m2, m3, m4, m5⟩ := ih (a + 1) (scanStep h s a) (by omega)
        (by simpa using hp) hmax' r hr
      rw [htarget]
      refine ⟨m1, m2, by omega, by omega, ?_⟩
      intro j hj1 hj2
      rcases Nat.eq_or_lt_of_le hj1 with heq | hlt2
      · rw [← heq, m1, ← htarget]
        exact hlt
      · exact m5 j (by omega) hj2
    · -- the cdf is already at its final value: the maximum is recorded
      -- here and never changes afterwards
      have heq : f a = f (a + (k + 1)) := by
        have := hmono a (a + (k + 1)) (by omega)
        omega
      have hupd := scanStep_max_update h s a (by rw [hc]; omega)
      rw [hc] at hupd
      obtain ⟨m1, m2, m3⟩ := scanFold_max_frozen f h hstep (k + 1) (a + 1)
        (scanStep h s a) (by omega) (by simpa using hp)
        (by
          intro i hi1 hi2
          rw [hupd.1]
          calc f i ≤ f (a + (k + 1)) := hmono i (a + (k + 1)) (by omega)
          _ = f a := heq.symm)
        r hr
      rw [m2, m3, hupd.1, hupd.2]
      exact ⟨heq, rfl, le_refl a, by omega, fun j hj1 hj2 => by omega⟩

theorem scanFold_append (h : ℕ → ℕ) (l1 l2 : List ℕ) (s : ScanSt) :
    scanFold h (l1 ++ l2) s = scanFold h l2 (scanFold h l1 s) :=
  List.foldl_append _ _ _ _

theorem hist_eq_zero_of_not_mem (I : List ℕ) (i : ℕ) (h : i ∉ I) :
    hist I i = 0 := by
  rw [hist, List.count_eq_zero]
  exact h

/-- Concrete evaluation principle for the scan loop: once every bin after
`m` is empty and the state reached after bin `m` can no longer be
updated, the fold over bins `1..255` equals the fold over bins `1..m`. -/
theorem eqScan_eq_of_tail_zero (I : List ℕ) (m : ℕ) (hm : m ≤ 255)
    (t : ScanSt)
    (hpre : scanFold (hist I) (List.range' 1 m)
      ⟨hist I 0, UINTMAX, UINTMAX, 0, 0⟩ = t)
    (hz : ∀ i, m + 1 ≤ i → i ≤ 255 → hist I i = 0)
    (hmin : ¬(t.cdfPrev < t.cdfMin ∧ 0 < t.cdfPrev))
    (hmax : ¬ t.cdfMax < t.cdfPrev) :
    eqScan I = t := by
  have hsplit : List.range' 1 m ++ List.range' (1 + m) (255 - m)
      = List.range' 1 255 := by
    rw [List.range'_append_1]
    congr 1
    omega
  have : eqScan I = scanFold (hist I)
      (List.range' 1 m ++ List.range' (1 + m) (255 - m))
      ⟨hist I 0, UINTMAX, UINTMAX, 0, 0⟩ := by
    rw [hsplit]
    rfl
  rw [this, scanFold_append, hpre]
  exact scanFold_frozen (hist I) _ t
    (by
      intro i hi
      rw [List.mem_range'_1] at hi
      exact hz i (by omega) (by omega))
    hmin hmax

/-- Unfolding of the equalization lookup table once the scan state is
known. -/
theorem equalizeLut_eq (I : List ℕ) (t : ScanSt) (hscan : eqScan I = t)
    (x : ℕ) :
    equalizeLut I x
      = if t.minVal ≤ x ∧ x ≤ t.maxVal then
          (if I.length - t.cdfMin = 0 then none
           else some (roundHalf ((cdf I x - t.cdfMin) * 255)
             (I.length - t.cdfMin)))
        else none := by
  rw [equalizeLut, hscan]

/-- Characterization of the scan loop over the cdf of an actual image:
`cdfMin`/`minValue` record the smallest positive cdf value over bins
`1..255` and the first bin index achieving it, and `cdfMax`/`maxValue`
record the maximum cdf value over bins `1..255` (which is `cdf[255]`,
the pixel count) and the first bin index achieving it. -/
theorem eqScan_spec (I : List ℕ) (hne : I ≠ [])
    (hpix : ∀ p ∈ I, p ≤ 255) (hsz : I.length < UINTMAX) :
    ((eqScan I).cdfMin = cdf I (eqScan I).minVal ∧
      0 < cdf I (eqScan I).minVal ∧
      1 ≤ (eqScan I).minVal ∧ (eqScan I).minVal ≤ 255 ∧
      ∀ j, 1 ≤ j → j < (eqScan I).minVal → cdf I j = 0) ∧
    ((eqScan I).cdfMax = cdf I 255 ∧
      cdf I (eqScan I).maxVal = (eqScan I).cdfMax ∧
      1 ≤ (eqScan I).maxVal ∧ (eqScan I).maxVal ≤ 255 ∧
      ∀ j, 1 ≤ j → j < (eqScan I).maxVal → cdf I j < (eqScan I).cdfMax) := by
  have hlen : 0 < I.length := List.length_pos.mpr hne
  have hstep : ∀ i, 1 ≤ i → cdf I i = cdf I (i - 1) + hist I i :=
    fun i hi => cdf_step I i hi
  have hmono : ∀ i j, i ≤ j → cdf I i ≤ cdf I j :=
    fun i j hij => cdf_mono I hij
  have hlast : cdf I 255 = I.length := cdf_last I hpix
  have hprev : (⟨hist I 0, UINTMAX, UINTMAX, 0, 0⟩ : ScanSt).cdfPrev
      = cdf I (1 - 1) := rfl
  constructor
  · obtain ⟨m1, m2, m3, m4, m5⟩ := scanFold_min_found (cdf I) (hist I)
      hstep hmono 255 1 ⟨hist I 0, UINTMAX, UINTMAX, 0, 0⟩ (le_refl 1)
      hprev
      (by
        intro i
        calc cdf I i ≤ I.length := cdf_le_length I i
        _ < UINTMAX := hsz)
      ⟨255, by omega, by omega, by rw [hlast]; exact hlen⟩
      (eqScan I) rfl
    exact ⟨m1, m2, m3, by omega, m5⟩
  · obtain ⟨m1, m2, m3, m4, m5⟩ := scanFold_max_found (cdf I) (hist I)
      hstep hmono 254 1 ⟨hist I 0, UINTMAX, UINTMAX, 0, 0⟩ (le_refl 1)
      hprev
      (by
        show (0 : ℕ) < cdf I (1 + 254)
        norm_num [hlast]
        exact hlen)
      (eqScan I) rfl
    have h255 : (1 : ℕ) + 254 = 255 := by norm_num
    rw [h255] at m1
    exact ⟨m1, m2, m3, by omega, fun j hj1 hj2 => m5 j hj1 hj2⟩

/-! ### Concrete evaluations of the equalization scan -/

theorem eqScan_01 : eqScan [0, 1] = ⟨2, 2, 1, 2, 1⟩ :=
  eqScan_eq_of_tail_zero [0, 1] 1 (by norm_num) ⟨2, 2, 1, 2, 1⟩ (by decide)
    (fun i hi1 _ => hist_eq_zero_of_not_mem _ _ (by simp; omega))
    (by decide) (by decide)

theorem eqScan_12 : eqScan [1, 2] = ⟨2, 1, 1, 2, 2⟩ :=
  eqScan_eq_of_tail_zero [1, 2] 2 (by norm_num) ⟨2, 1, 1, 2, 2⟩ (by decide)
    (fun i hi1 _ => hist_eq_zero_of_not_mem _ _ (by simp; omega))
    (by decide) (by decide)

set_option maxRecDepth 8000 in
theorem eqScan_77 : eqScan [77, 77, 77] = ⟨3, 3, 77, 3, 77⟩ :=
  eqScan_eq_of_tail_zero [77, 77, 77] 77 (by norm_num) ⟨3, 3, 77, 3, 77⟩
    (by decide)
    (fun i hi1 _ => hist_eq_zero_of_not_mem _ _ (by simp; omega))
    (by decide) (by decide)

theorem equalizeHistogram_12 : equalizeHistogram [1, 2] = some [0, 255] := by
  have h1 : equalizeLut [1, 2] 1 = some 0 := by
    rw [equalizeLut_eq [1, 2] _ eqScan_12 1]
    decide
  have h2 : equalizeLut [1, 2] 2 = some 255 := by
    rw [equalizeLut_eq [1, 2] _ eqScan_12 2]
    decide
  rw [equalizeHistogram, if_neg (by decide)]
  simp only [mapOpt, h1, h2]

set_option maxRecDepth 8000 in
theorem equalizeHistogram_77 : equalizeHistogram [77, 77, 77] = none := by
  have h1 : equalizeLut [77, 77, 77] 77 = none := by
    rw [equalizeLut_eq [77, 77, 77] _ eqScan_77 77]
    decide
  rw [equalizeHistogram, if_neg (by decide)]
  simp only [mapOpt, h1]

/-! ### General helpers: partial lookup application, min/max scans,
index-based passes, plane interleaving, saturation -/

theorem mapOpt_length (f : α → Option β) :
    ∀ (l : List α) (r : List β), mapOpt f l = some r → r.length = l.length := by
  intro l
  induction l with
  | nil =>
    intro r hr
    simp only [mapOpt] at hr
    cases hr
    rfl
  | cons a l ih =>
    intro r hr
    simp only [mapOpt] at hr
    cases hfa : f a with
    | none => rw [hfa] at hr; simp at hr
    | some b =>
      rw [hfa] at hr
      cases hrec : mapOpt f l with
      | none => rw [hrec] at hr; simp at hr
      | some r' =>
        rw [hrec] at hr
        cases hr
        simp [ih r' hrec]

theorem mapOpt_eq_map (f : α → Option β) (g : α → β) :
    ∀ (l : List α), (∀ a ∈ l, f a = some (g a)) →
    mapOpt f l = some (l.map g) := by
  intro l
  induction l with
  | nil => intro _; rfl
  | cons a l ih =>
    intro h
    have ha := h a (List.mem_cons_self a l)
    have hl := ih (fun x hx => h x (List.mem_cons_of_mem a hx))
    simp only [mapOpt, ha, hl, List.map_cons]

theorem equalizeHistogram_length (I r : List ℕ)
    (h : equalizeHistogram I = some r) : r.length = I.length := by
  rw [equalizeHistogram] at h
  by_cases hlen : I.length = 0
  · rw [if_pos hlen] at h
    cases h
    rfl
  · rw [if_neg hlen] at h
    exact mapOpt_length _ I r h

theorem foldl_min_le [LinearOrder α] :
    ∀ (l : List α) (a : α), l.foldl min a ≤ a ∧ ∀ x ∈ l, l.foldl min a ≤ x := by
  intro l
  induction l with
  | nil => intro a; simp
  | cons b l ih =>
    intro a
    simp only [List.foldl_cons]
    obtain ⟨h1, h2⟩ := ih (min a b)
    refine ⟨le_trans h1 (min_le_left a b), ?_⟩
    intro x hx
    rcases List.mem_cons.mp hx with rfl | hx'
    · exact le_trans h1 (min_le_right a x)
    · exact h2 x hx'

theorem le_foldl_max [LinearOrder α] :
    ∀ (l : List α) (a : α), a ≤ l.foldl max a ∧ ∀ x ∈ l, x ≤ l.foldl max a := by
  intro l
  induction l with
  | nil => intro a; simp
  | cons b l ih =>
    intro a
    simp only [List.foldl_cons]
    obtain ⟨h1, h2⟩ := ih (max a b)
    refine ⟨le_trans (le_max_left a b) h1, ?_⟩
    intro x hx
    rcases List.mem_cons.mp hx with rfl | hx'
    · exact le_trans (le_max_right a x) h1
    · exact h2 x hx'

theorem listMinNat_le (l : List ℕ) (x : ℕ) (hx : x ∈ l) : listMinNat l ≤ x :=
  (foldl_min_le l (l.headD 0)).2 x hx

theorem le_listMaxNat (l : List ℕ) (x : ℕ) (hx : x ∈ l) : x ≤ listMaxNat l :=
  (le_foldl_max l (l.headD 0)).2 x hx

theorem map_range_getD (d : α) (f : α → β) :
    ∀ (l : List α),
    (List.range l.length).map (fun i => f (l.getD i d)) = l.map f := by
  intro l
  induction l with
  | nil => rfl
  | cons a l ih =>
    rw [List.length_cons, List.range_succ_eq_map]
    simp only [List.map_cons, List.map_map]
    congr 1

theorem getD_map_lt (f : α → β) :
    ∀ (l : List α) (i : ℕ), i < l.length → ∀ (d : α) (d' : β),
    (l.map f).getD i d' = f (l.getD i d) := by
  intro l
  induction l with
  | nil =>
    intro i hi
    simp at hi
  | cons a l ih =>
    intro i hi d d'
    cases i with
    | zero => rfl
    | succ n =>
      simp only [List.map_cons, List.getD_cons_succ]
      exact ih n (by simpa using hi) d d'

theorem mergeRGBa_proj :
    ∀ (r g b a : List ℕ), r.length = g.length → g.length = b.length →
    b.length = a.length →
    (mergeRGBa r g b a).map RGBa.R = r ∧ (mergeRGBa r g b a).map RGBa.G = g ∧
    (mergeRGBa r g b a).map RGBa.B = b ∧ (mergeRGBa r g b a).map RGBa.A = a := by
  intro r
  induction r with
  | nil =>
    intro g b a h1 h2 h3
    simp only [List.length_nil] at h1
    have hg : g = [] := List.length_eq_zero.mp h1.symm
    subst hg
    simp only [List.length_nil] at h2
    have hb : b = [] := List.length_eq_zero.mp h2.symm
    subst hb
    simp only [List.length_nil] at h3
    have ha : a = [] := List.length_eq_zero.mp h3.symm
    subst ha
    simp [mergeRGBa]
  | cons x r ih =>
    intro g b a h1 h2 h3
    cases g with
    | nil => simp at h1
    | cons y g =>
      cases b with
      | nil => simp at h2
      | cons z b =>
        cases a with
        | nil => simp at h3
        | cons w a =>
          simp only [List.length_cons, Nat.succ.injEq] at h1 h2 h3
          obtain ⟨p1, p2, p3, p4⟩ := ih g b a h1 h2 h3
          simp [mergeRGBa, p1, p2, p3, p4]

theorem saturate_nat (n : ℕ) (hn : n ≤ 255) : saturate (n : ℚ) = n := by
  rw [saturate]
  have hfloor : ⌊(n : ℚ) + 1/2⌋ = (n : ℤ) := by
    rw [Int.floor_eq_iff]
    constructor
    · push_cast
      linarith
    · push_cast
      linarith
  rw [hfloor]
  have h1 : max 0 (n : ℤ) = n := max_eq_right (by positivity)
  rw [h1]
  have h2 : min 255 (n : ℤ) = n := min_eq_right (by exact_mod_cast hn)
  rw [h2]
  exact Int.toNat_natCast n

theorem range_getD (n i d : ℕ) (h : i < n) : (List.range n).getD i d = i := by
  rw [List.getD_eq_getElem?_getD, List.getElem?_range h]
  rfl

theorem getD_map_range (f : ℕ → α) (n i : ℕ) (h : i < n) (d : α) :
    ((List.range n).map f).getD i d = f i := by
  rw [getD_map_lt f (List.range n) i (by simpa using h) 0 d,
    range_getD n i 0 h]

/-! ### Claim theorems -/

/-- C9: for every grayscale image (a list of pixel bytes, each ≤ 255),
`adjust(I, 1, 0)` — multiplicative factor 1, additive offset 0 — is the
identity transform: every pixel value is unchanged. -/
theorem C9_adjust_identity (I : List ℕ) (hpix : ∀ p ∈ I, p ≤ 255) :
    adjust I 1 0 = I := by
  rw [adjust]
  trans I.map id
  · apply List.map_congr_left
    intro p hp
    rw [one_mul, add_zero, saturate_nat p (hpix p hp)]
    rfl
  · exact List.map_id I

theorem C9_witness : adjust [0, 128, 255] 1 0 = [0, 128, 255] :=
  C9_adjust_identity [0, 128, 255] (by decide)

/-- C6: for every image (grayscale or color), kernel size, and weight `w`
with `w < 0` or `w ≥ 1`, `unsharpMask` is a silent no-op: no error is
raised and the image is returned byte-for-byte unchanged (the guard
`weight < 1 && weight >= 0` skips the whole body), for any behaviour of
the external Gaussian blur. -/
theorem C6_unsharpMask_out_of_range (blur blurC : ℕ → List ℕ → List ℚ)
    (I : List ℕ) (J : List RGBa) (size : ℕ) (w : ℚ)
    (hw : w < 0 ∨ 1 ≤ w) :
    unsharpMask blur I size w = I ∧ unsharpMaskColor blurC J size w = J := by
  have hcond : ¬(w < 1 ∧ 0 ≤ w) := by
    rcases hw with h | h
    · intro hc
      linarith [hc.2]
    · intro hc
      linarith [hc.1]
  constructor
  · rw [unsharpMask, if_neg hcond]
  · rw [unsharpMaskColor, if_neg hcond]

theorem C6_witness :
    unsharpMask (fun _ _ => []) [7] 3 2 = [7] ∧
    unsharpMaskColor (fun _ _ => []) [⟨1, 2, 3, 4⟩] 3 2 = [⟨1, 2, 3, 4⟩] :=
  C6_unsharpMask_out_of_range (fun _ _ => []) (fun _ _ => []) [7]
    [⟨1, 2, 3, 4⟩] 3 2 (Or.inr (by norm_num))

/-- C10: for every grayscale image (pixel bytes ≤ 255), every kernel
size, and any behaviour of the external Gaussian blur, `unsharpMask`
with weight exactly 0 leaves the image unchanged: the per-pixel formula
`(in - 0·blurred) / (1 - 0)` reduces to the input value, and saturating
an in-range byte returns it unchanged. -/
theorem C10_unsharpMask_zero_weight (blur : ℕ → List ℕ → List ℚ)
    (I : List ℕ) (size : ℕ) (hpix : ∀ p ∈ I, p ≤ 255) :
    unsharpMask blur I size 0 = I := by
  simp only [unsharpMask]
  rw [if_pos (by norm_num : (0 : ℚ) < 1 ∧ (0 : ℚ) ≤ 0)]
  trans (List.range I.length).map (fun cpt => saturate ((I.getD cpt 0 : ℕ) : ℚ))
  · apply List.map_congr_left
    intro i _
    norm_num
  trans I.map (fun p => saturate ((p : ℕ) : ℚ))
  · exact map_range_getD 0 (fun p => saturate ((p : ℕ) : ℚ)) I
  trans I.map id
  · apply List.map_congr_left
    intro p hp
    rw [saturate_nat p (hpix p hp)]
    rfl
  · exact List.map_id I

theorem C10_witness : unsharpMask (fun _ _ => []) [0, 200, 255] 3 0 = [0, 200, 255] :=
  C10_unsharpMask_zero_weight (fun _ _ => []) [0, 200, 255] 3 (by decide)

/-- C7: for every color image, kernel size, weight `w ∈ [0,1)`, and any
behaviour of the external Gaussian blur, the color `unsharpMask`
sharpens only the R, G and B channels — pixel `i` gets
`saturate((in - w·blurred)/(1-w))` per channel, each channel with its
own blurred plane — while the alpha byte of every pixel is bit-for-bit
unchanged. -/
theorem C7_unsharpMaskColor_alpha (blur : ℕ → List ℕ → List ℚ)
    (I : List RGBa) (size : ℕ) (w : ℚ) (h0 : 0 ≤ w) (h1 : w < 1) :
    (unsharpMaskColor blur I size w).map RGBa.A = I.map RGBa.A ∧
    ∀ i, i < I.length →
      (unsharpMaskColor blur I size w).getD i ⟨0, 0, 0, 0⟩
        = { R := saturate ((((I.getD i ⟨0, 0, 0, 0⟩).R : ℚ)
                - w * (blur size (I.map RGBa.R)).getD i 0) / (1 - w)),
            G := saturate ((((I.getD i ⟨0, 0, 0, 0⟩).G : ℚ)
                - w * (blur size (I.map RGBa.G)).getD i 0) / (1 - w)),
            B := saturate ((((I.getD i ⟨0, 0, 0, 0⟩).B : ℚ)
                - w * (blur size (I.map RGBa.B)).getD i 0) / (1 - w)),
            A := (I.getD i ⟨0, 0, 0, 0⟩).A } := by
  simp only [unsharpMaskColor]
  rw [if_pos ⟨h1, h0⟩]
  constructor
  · rw [List.map_map]
    exact map_range_getD ⟨0, 0, 0, 0⟩ RGBa.A I
  · intro i hi
    rw [getD_map_range _ _ _ hi]

theorem C7_witness :
    (unsharpMaskColor (fun _ _ => []) [⟨1, 2, 3, 4⟩] 3 (1/2)).map RGBa.A = [4] :=
  (C7_unsharpMaskColor_alpha (fun _ _ => []) [⟨1, 2, 3, 4⟩] 3 (1/2)
    (by norm_num) (by norm_num)).1

/-- C8: for every color image and any behaviour of the external RGBa↔HSV
conversions, `stretchContrastHSV` never modifies the hue channel: the
hue passed back to the inverse conversion at every pixel is exactly the
hue obtained from the forward conversion at that pixel, while the
saturation and value planes are each rescaled by `(v-min)/(max-min)`
when their range is positive and left unmodified when their range is 0
(so no division by zero occurs). -/
theorem C8_stretchContrastHSV_hue (toHSV : RGBa → ℚ × ℚ × ℚ)
    (fromHSV : ℚ × ℚ × ℚ → RGBa) (I : List RGBa) (i : ℕ)
    (hi : i < I.length) :
    (stretchContrastHSV toHSV fromHSV I).getD i ⟨0, 0, 0, 0⟩
      = fromHSV ((toHSV (I.getD i ⟨0, 0, 0, 0⟩)).1,
          (stretchPlane (I.map fun p => (toHSV p).2.1)).getD i 0,
          (stretchPlane (I.map fun p => (toHSV p).2.2)).getD i 0) ∧
    (∀ s : List ℚ, ¬ 0 < listMaxQ s - listMinQ s → stretchPlane s = s) ∧
    (∀ s : List ℚ, 0 < listMaxQ s - listMinQ s →
      stretchPlane s = s.map fun x => (x - listMinQ s) / (listMaxQ s - listMinQ s)) := by
  refine ⟨?_, ?_, ?_⟩
  · simp only [stretchContrastHSV]
    rw [getD_map_range _ _ _ hi,
      getD_map_lt (fun p => (toHSV p).1) I i hi ⟨0, 0, 0, 0⟩ 0]
  · intro s hs
    simp only [stretchPlane]
    rw [if_neg hs]
  · intro s hs
    simp only [stretchPlane]
    rw [if_pos hs]

theorem C8_witness :
    (stretchContrastHSV (fun p => ((p.R : ℚ), (p.G : ℚ), (p.B : ℚ)))
      (fun _ => (⟨9, 9, 9, 9⟩ : RGBa)) [⟨5, 6, 7, 8⟩]).getD 0 ⟨0, 0, 0, 0⟩
      = ⟨9, 9, 9, 9⟩ :=
  (C8_stretchContrastHSV_hue (fun p => ((p.R : ℚ), (p.G : ℚ), (p.B : ℚ)))
    (fun _ => (⟨9, 9, 9, 9⟩ : RGBa)) [⟨5, 6, 7, 8⟩] 0 (by norm_num)).1

/-- C5: for every non-empty grayscale image with minimum pixel value
`min` and maximum `max`: if `max > min`, `stretchContrast` replaces each
pixel `x` by `255·(x-min)/(max-min)` with truncating integer division;
if `max = min`, every pixel reads the single written lookup entry
`lut[min] = min` and the uniform image is left unchanged. -/
theorem C5_stretchContrast_spec (I : List ℕ) (_hne : I ≠ []) :
    (listMinNat I < listMaxNat I →
      stretchContrast I = some (I.map fun x =>
        255 * (x - listMinNat I) / (listMaxNat I - listMinNat I))) ∧
    (listMaxNat I = listMinNat I → stretchContrast I = some I) := by
  constructor
  · intro hlt
    rw [stretchContrast]
    apply mapOpt_eq_map
    intro x hx
    have h1 := listMinNat_le I x hx
    have h2 := le_listMaxNat I x hx
    simp only [stretchLut]
    rw [if_pos (by omega), if_pos ⟨h1, h2⟩]
  · intro heq
    rw [stretchContrast]
    have hthis : mapOpt (stretchLut I) I = some (I.map id) := by
      apply mapOpt_eq_map
      intro x hx
      have h1 := listMinNat_le I x hx
      have h2 := le_listMaxNat I x hx
      have hx' : x = listMinNat I := by omega
      simp only [stretchLut]
      rw [if_neg (by omega), if_pos hx', hx']
      rfl
    rw [hthis, List.map_id]

theorem C5_witness :
    stretchContrast [10, 10, 10, 200] = some [0, 0, 0, 255] ∧
    stretchContrast [77, 77, 77] = some [77, 77, 77] := by
  constructor
  · have h := (C5_stretchContrast_spec [10, 10, 10, 200] (by decide)).1 (by decide)
    rw [h]
    decide
  · exact (C5_stretchContrast_spec [77, 77, 77] (by decide)).2 (by decide)

/-- C2 (amended): for every image and every gamma value γ ≤ 0, both
forms of `gammaCorrection` raise the invalid-argument error; the
in-place argument is left unmodified, but the two-buffer form first
executes `I2 = I1`, so on failure the output buffer has already been
overwritten with a copy of the input (only the gamma transform itself is
never applied). -/
theorem C2_gammaCorrection_nonpos (powf : ℚ → ℚ → ℚ) (I I2 : List ℕ)
    (gamma : ℚ) (hg : gamma ≤ 0) :
    gammaCorrection powf I gamma = (I, some gammaErrMsg) ∧
    gammaCorrection2 powf I I2 gamma = (I, some gammaErrMsg) := by
  have hng : ¬ 0 < gamma := by linarith
  rw [gammaCorrection2, gammaCorrection, if_neg hng]
  exact ⟨rfl, rfl⟩

theorem C2_witness :
    gammaCorrection (fun x _ => x) [5] 0 = ([5], some gammaErrMsg) ∧
    gammaCorrection2 (fun x _ => x) [5] [9] 0 = ([5], some gammaErrMsg) :=
  C2_gammaCorrection_nonpos (fun x _ => x) [5] [9] 0 (by norm_num)

/-- C2 counterexample: with γ = 0 the two-buffer `gammaCorrection` DOES
mutate the output buffer before the failure: called with input `[5]` and
an output buffer previously holding `[9]`, the error is raised and the
output buffer ends up holding `[5]` (a copy of the input), not its
original contents `[9]`. -/
theorem C2_counterexample :
    (gammaCorrection2 (fun x _ => x) [5] [9] 0).2 = some gammaErrMsg ∧
    (gammaCorrection2 (fun x _ => x) [5] [9] 0).1 ≠ [9] ∧
    (gammaCorrection2 (fun x _ => x) [5] [9] 0).1 = [5] := by
  have h : gammaCorrection2 (fun x _ => x) [5] [9] 0 = ([5], some gammaErrMsg) := by
    rw [gammaCorrection2, gammaCorrection, if_neg (by norm_num)]
  rw [h]
  exact ⟨rfl, by decide, rfl⟩

/-- C1 (amended): for every non-empty color image, non-HSV
`equalizeHistogram` splits the image into the four planes R, G, B, A,
applies grayscale histogram equalization to the R, G and B planes only
(whenever those equalizations are defined), and interleaves the three
equalized planes together with the ORIGINAL alpha plane back into the
RGBA image: the resulting alpha plane equals the input's alpha plane,
not its equalization. -/
theorem C1_colorEqualize_channels (I : List RGBa) (r g b : List ℕ)
    (hne : I ≠ [])
    (hr : equalizeHistogram (I.map RGBa.R) = some r)
    (hg : equalizeHistogram (I.map RGBa.G) = some g)
    (hb : equalizeHistogram (I.map RGBa.B) = some b) :
    colorEqualizeHistogram I = some (mergeRGBa r g b (I.map RGBa.A)) ∧
    (mergeRGBa r g b (I.map RGBa.A)).map RGBa.R = r ∧
    (mergeRGBa r g b (I.map RGBa.A)).map RGBa.G = g ∧
    (mergeRGBa r g b (I.map RGBa.A)).map RGBa.B = b ∧
    (mergeRGBa r g b (I.map RGBa.A)).map RGBa.A = I.map RGBa.A := by
  have hlen : ¬ I.length = 0 := by
    have := List.length_pos.mpr hne
    omega
  have hlr : r.length = I.length := by
    have h := equalizeHistogram_length _ _ hr
    rw [List.length_map] at h
    exact h
  have hlg : g.length = I.length := by
    have h := equalizeHistogram_length _ _ hg
    rw [List.length_map] at h
    exact h
  have hlb : b.length = I.length := by
    have h := equalizeHistogram_length _ _ hb
    rw [List.length_map] at h
    exact h
  have hla : (I.map RGBa.A).length = I.length := List.length_map I RGBa.A
  obtain ⟨p1, p2, p3, p4⟩ := mergeRGBa_proj r g b (I.map RGBa.A)
    (by omega) (by omega) (by omega)
  refine ⟨?_, p1, p2, p3, p4⟩
  rw [colorEqualizeHistogram, if_neg hlen, hr, hg, hb]

theorem C1_witness :
    colorEqualizeHistogram [⟨1, 1, 1, 1⟩, ⟨2, 2, 2, 2⟩]
      = some (mergeRGBa [0, 255] [0, 255] [0, 255]
          ([⟨1, 1, 1, 1⟩, ⟨2, 2, 2, 2⟩].map RGBa.A)) :=
  (C1_colorEqualize_channels [⟨1, 1, 1, 1⟩, ⟨2, 2, 2, 2⟩] [0, 255] [0, 255]
    [0, 255] (by decide) equalizeHistogram_12 equalizeHistogram_12
    equalizeHistogram_12).1

/-- C1 counterexample: on the color image whose four planes all equal
`[1, 2]`, the result's alpha plane is `[1, 2]` — the original alpha
plane — while the grayscale equalization of `[1, 2]` is `[0, 255]`; so
the resulting alpha plane is NOT the equalization of the input's alpha
plane, refuting the claim that the alpha channel is equalized too. -/
theorem C1_counterexample :
    colorEqualizeHistogram [⟨1, 1, 1, 1⟩, ⟨2, 2, 2, 2⟩]
      = some [⟨0, 0, 0, 1⟩, ⟨255, 255, 255, 2⟩] ∧
    equalizeHistogram ([⟨1, 1, 1, 1⟩, ⟨2, 2, 2, 2⟩].map RGBa.A) = some [0, 255] ∧
    ([⟨0, 0, 0, 1⟩, ⟨255, 255, 255, 2⟩] : List RGBa).map RGBa.A ≠ [0, 255] := by
  have hmapR : [⟨1, 1, 1, 1⟩, ⟨2, 2, 2, 2⟩].map RGBa.R = [1, 2] := rfl
  have hmapG : [⟨1, 1, 1, 1⟩, ⟨2, 2, 2, 2⟩].map RGBa.G = [1, 2] := rfl
  have hmapB : [⟨1, 1, 1, 1⟩, ⟨2, 2, 2, 2⟩].map RGBa.B = [1, 2] := rfl
  have hmapA : [⟨1, 1, 1, 1⟩, ⟨2, 2, 2, 2⟩].map RGBa.A = [1, 2] := rfl
  refine ⟨?_, by rw [hmapA]; exact equalizeHistogram_12, by decide⟩
  rw [colorEqualizeHistogram, if_neg (by decide), hmapR, hmapG, hmapB,
    equalizeHistogram_12]
  decide

/-- C4: the claim that equalizing a non-empty constant-value grayscale
image leaves it unchanged; on such an image `cdfMin = nbPixels`, so the
code computes `lut[v] = round((0)/(double)(0) · 255) = round(NaN)`, an
unspecified byte, and writes it to every pixel — in the model the result
is `none` (undefined), not the unchanged image. -/
theorem C4_constant_image_undefined :
    equalizeHistogram [77, 77, 77] = none ∧ ([77, 77, 77] : List ℕ) ≠ [] :=
  ⟨equalizeHistogram_77, by decide⟩

/-- C3 (amended): for every non-empty grayscale image (pixel bytes
≤ 255, fewer than 2^32 pixels), the grayscale `equalizeHistogram`
computes the 256-bin histogram and its cdf, sets `cdfMin` to the
smallest positive cdf value over bins 1..255 (bin 0 is excluded from the
scan) with `minValue` the bin index achieving it, sets
`cdfMax`/`maxValue` to the maximum cdf value over bins 1..255 — which is
`cdf[255]`, the pixel count — and the bin index achieving it, builds
`lut[x] = round((cdf[x]-cdfMin)/(nbPixels-cdfMin)·255)` for every
`x ∈ [minValue, maxValue]` whenever `nbPixels > cdfMin` (when
`nbPixels = cdfMin` the quotient is 0/0 and the entry is unspecified),
and applies this lookup table to every pixel. -/
theorem C3_equalizeHistogram_spec (I : List ℕ) (hne : I ≠ [])
    (hpix : ∀ p ∈ I, p ≤ 255) (hsz : I.length < UINTMAX) :
    ((eqScan I).cdfMin = cdf I (eqScan I).minVal ∧
      0 < cdf I (eqScan I).minVal ∧
      1 ≤ (eqScan I).minVal ∧ (eqScan I).minVal ≤ 255 ∧
      ∀ i, 1 ≤ i → i ≤ 255 → 0 < cdf I i → (eqScan I).cdfMin ≤ cdf I i) ∧
    ((eqScan I).cdfMax = cdf I 255 ∧
      cdf I (eqScan I).maxVal = (eqScan I).cdfMax ∧
      1 ≤ (eqScan I).maxVal ∧ (eqScan I).maxVal ≤ 255 ∧
      ∀ i, i ≤ 255 → cdf I i ≤ (eqScan I).cdfMax) ∧
    (∀ x, (eqScan I).minVal ≤ x → x ≤ (eqScan I).maxVal →
      (eqScan I).cdfMin < I.length →
      equalizeLut I x = some (roundHalf ((cdf I x - (eqScan I).cdfMin) * 255)
        (I.length - (eqScan I).cdfMin))) ∧
    equalizeHistogram I = mapOpt (equalizeLut I) I := by
  obtain ⟨⟨m1, m2, m3, m4, m5⟩, M1, M2, M3, M4, M5⟩ := eqScan_spec I hne hpix hsz
  refine ⟨⟨m1, m2, m3, m4, ?_⟩, ⟨M1, M2, M3, M4, ?_⟩, ?_, ?_⟩
  · intro i h1 h2 hpos
    rcases Nat.lt_or_ge i (eqScan I).minVal with hlt | hge
    · exact absurd (m5 i h1 hlt) (by omega)
    · rw [m1]
      exact cdf_mono I hge
  · intro i h2
    rw [M1]
    exact cdf_mono I h2
  · intro x hx1 hx2 hlt
    rw [equalizeLut, if_pos ⟨hx1, hx2⟩, if_neg (by omega)]
  · rw [equalizeHistogram,
      if_neg (by have := List.length_pos.mpr hne; omega)]

theorem C3_witness :
    equalizeHistogram [1, 2] = mapOpt (equalizeLut [1, 2]) [1, 2] :=
  (C3_equalizeHistogram_spec [1, 2] (by decide) (by decide) (by decide)).2.2.2

/-- C3 counterexample: the claim says `cdfMin` is the smallest positive
cdf value over ALL 256 bins, but the scan loop starts at bin 1: on the
image `[0, 1]` the cdf at bin 0 is 1 (positive), yet the computed
`cdfMin` is 2 — strictly larger than a positive cdf value, so `cdfMin`
is not the smallest positive cdf value over all 256 bins. -/
theorem C3_counterexample :
    (eqScan [0, 1]).cdfMin = 2 ∧ cdf [0, 1] 0 = 1 ∧ 0 < cdf [0, 1] 0 ∧
    cdf [0, 1] 0 < (eqScan [0, 1]).cdfMin := by
  rw [eqScan_01]
  refine ⟨rfl, by decide, by decide, by decide⟩

end Vp
